import Mathlib

set_option synthInstance.maxSize 4000

/-!
# Pessimistic-proof core: shallow embedding

A shallow embedding of the AggLayer pessimistic-proof core
(`src/pessimistic_proof/src/proof.rs`, `src/invariant_proof/src/withdrawal.rs`)
together with the parts of the crate that the spec describes but whose source
files are absent (`batch.rs`, `keccak.rs`, `local_exit_tree`), modelled from the
spec where so noted. Machine integers are `Nat` with explicit `% 2^w` masking.
-/

namespace PP

/-! ## Keccak-256

Modelled from the spec: `keccak.rs` is absent from `src/`; the spec (§1, §6)
consumes the hash primitive as Keccak-256 over byte strings, with
`hash_combine` defined as hash of the concatenation. This is the standard
Keccak-f[1600] sponge with rate 136 and the original 0x01 pad, over `Nat`
lanes masked to 64 bits. Bytes are `Nat` values below 256. -/

def mask64 : Nat := 2 ^ 64 - 1

/-- Left-rotate a 64-bit lane by `n` bits (`0 ≤ n < 64`). -/
def rotl64 (x n : Nat) : Nat :=
  ((x <<< n) ||| (x >>> (64 - n))) &&& mask64

/-- ρ rotation offsets for the 25 lanes (ordered `x + 5*y`), packed six bits
per lane into one integer; lane `i`'s offset is bits `6*i .. 6*i+5`. -/
def rhoPacked : Nat := 0xee3d0922153eda6766b2835371ac91b73e040

/-- ρ rotation offsets, lanes ordered `x + 5*y`. -/
def rhoOff : List Nat :=
  (List.range 25).map fun i => (rhoPacked >>> (6 * i)) &&& 63

/-- The 24 Keccak-f[1600] ι round constants, packed 64 bits per round into
one integer; round `i`'s constant is bits `64*i .. 64*i+63`. -/
def rcPacked : Nat :=
  0x8000000080008008000000008000000180000000000080808000000080008081800000008000000a000000000000800a8000000000000080800000000000800280000000000080038000000000008089800000000000008b000000008000808b000000008000000a00000000800080090000000000000088000000000000008a800000000000800980000000800080810000000080000001000000000000808b8000000080008000800000000000808a00000000000080820000000000000001

/-- Keccak-f[1600] round constants. -/
def roundConstants : List Nat :=
  (List.range 24).map fun i => (rcPacked >>> (64 * i)) &&& mask64

/-- Lane read with default 0. -/
def lane (s : List Nat) (i : Nat) : Nat := s.getD i 0

/-- Inverse of the π lane permutation `(x,y) ↦ (y, (2x+3y) mod 5)`. -/
def piInv (j : Nat) : Nat :=
  (j % 5 + 3 * (j / 5)) % 5 + 5 * (j % 5)

/-- One Keccak-f[1600] round (θ, ρ, π, χ, ι). -/
def keccakRound (s : List Nat) (rc : Nat) : List Nat :=
  let C := (List.range 5).map fun x =>
    lane s x ^^^ lane s (x + 5) ^^^ lane s (x + 10) ^^^ lane s (x + 15) ^^^ lane s (x + 20)
  let D := (List.range 5).map fun x =>
    lane C ((x + 4) % 5) ^^^ rotl64 (lane C ((x + 1) % 5)) 1
  let s1 := (List.range 25).map fun i => lane s i ^^^ lane D (i % 5)
  let B := (List.range 25).map fun j =>
    rotl64 (lane s1 (piInv j)) (lane rhoOff (piInv j))
  let s2 := (List.range 25).map fun i =>
    let x := i % 5
    let y := i / 5
    lane B i ^^^ ((lane B ((x + 1) % 5 + 5 * y) ^^^ mask64) &&& lane B ((x + 2) % 5 + 5 * y))
  (lane s2 0 ^^^ rc) :: s2.drop 1

/-- The full 24-round Keccak-f[1600] permutation. -/
def keccakF (s : List Nat) : List Nat :=
  roundConstants.foldl keccakRound s

/-- Original Keccak `0x01` padding to a multiple of 136 bytes. -/
def keccakPad (len : Nat) : List Nat :=
  let padTotal := 136 - len % 136
  if padTotal = 1 then [0x81]
  else 0x01 :: (List.replicate (padTotal - 2) 0 ++ [0x80])

/-- Interpret 8 bytes (little-endian) starting at offset `off` as one lane. -/
def laneOfBytes (block : List Nat) (off : Nat) : Nat :=
  (List.range 8).foldl (fun acc i => acc ||| (block.getD (off + i) 0 <<< (8 * i))) 0

/-- XOR a 136-byte block into the first 17 lanes of the state. -/
def absorbBlock (s : List Nat) (block : List Nat) : List Nat :=
  keccakF <| (List.range 25).map fun i =>
    if i < 17 then lane s i ^^^ laneOfBytes block (8 * i) else lane s i

/-- Absorb the padded message, 136 bytes per block. -/
def absorbBlocks (s : List Nat) (msg : List Nat) (fuel : Nat) : List Nat :=
  match fuel with
  | 0 => s
  | fuel + 1 =>
    match msg with
    | [] => s
    | _ => absorbBlocks (absorbBlock s (msg.take 136)) (msg.drop 136) fuel

/-- Squeeze the 32-byte digest out of the first 4 lanes, little-endian. -/
def squeeze256 (s : List Nat) : List Nat :=
  (List.range 32).map fun i => (lane s (i / 8) >>> (8 * (i % 8))) &&& 0xff

/-- Keccak-256 of a byte string: 32-byte digest. -/
def keccak256 (msg : List Nat) : List Nat :=
  let padded := msg ++ keccakPad msg.length
  squeeze256 (absorbBlocks (List.replicate 25 0) padded (padded.length / 136 + 1))

/-- `keccak256_combine`: hash of the concatenation of the byte slices. -/
def keccak256_combine (slices : List (List Nat)) : List Nat :=
  keccak256 slices.flatten

end PP

namespace PP

/-! ## Byte encodings and scalar types -/

/-- Big-endian encoding of `n` into exactly `len` bytes (high bits beyond
`8*len` are dropped, as fixed-width integer serialization does). -/
def beBytes (len n : Nat) : List Nat :=
  (List.range len).map fun i => (n >>> (8 * (len - 1 - i))) &&& 0xff

/-- A Keccak digest: 32 bytes. -/
abbrev Digest := List Nat

/-- `Digest::default()`: the all-zero 32-byte digest. -/
def zeroDigest : Digest := List.replicate 32 0

/-- `NetworkId`: an opaque `u32`, modelled as `Nat` (it is only ever used as an
ordered map key, never arithmetically). -/
abbrev NetworkId := Nat

/-- A 20-byte address, modelled as its 160-bit big-endian value; `as_slice()`
is `beBytes 20`. -/
abbrev Address := Nat

/-- `TokenInfo`: identifies a token by its origin network and address there. -/
structure TokenInfo where
  origin_network : NetworkId
  origin_token_address : Address
deriving DecidableEq

/-- `TokenInfo::hash`: keccak over `origin_network(4, BE) ‖ origin_token_address(20)`. -/
def TokenInfo.hash (t : TokenInfo) : Digest :=
  keccak256_combine [beBytes 4 t.origin_network, beBytes 20 t.origin_token_address]

/-- `Withdrawal`: a transfer of `amount` of token `token_info` to
`dest_address` on `dest_network`. `amount` is a `U256` value, `metadata` a
byte string. -/
structure Withdrawal where
  leaf_type : Nat
  token_info : TokenInfo
  dest_network : NetworkId
  dest_address : Address
  amount : Nat
  metadata : List Nat
deriving DecidableEq

/-- `Withdrawal::amount_as_bytes`: `amount.to_be_bytes::<32>()` already yields
32 bytes, so the source's padding loop contributes zero bytes and the result
is the 32-byte big-endian encoding. -/
def Withdrawal.amount_as_bytes (w : Withdrawal) : List Nat :=
  beBytes 32 w.amount

/-- `Withdrawal::hash`: keccak over
`leaf_type(1) ‖ origin_network(4) ‖ origin_token_address(20) ‖ dest_network(4)
‖ dest_address(20) ‖ amount(32) ‖ keccak256(metadata)`. -/
def Withdrawal.hash (w : Withdrawal) : Digest :=
  keccak256_combine
    [[w.leaf_type],
     beBytes 4 w.token_info.origin_network,
     beBytes 20 w.token_info.origin_token_address,
     beBytes 4 w.dest_network,
     beBytes 20 w.dest_address,
     w.amount_as_bytes,
     keccak256 w.metadata]

/-! ## Sorted association lists (the `BTreeMap` model)

A `BTreeMap` is modelled as an association list with strictly increasing
`Nat` keys; this canonical representation makes map equality coincide with
content equality. -/

/-- Keys strictly increase (pairwise, hence the representation is canonical). -/
def Smap.Sorted {β : Type} (m : List (Nat × β)) : Prop :=
  m.Pairwise fun a b => a.1 < b.1

instance {β : Type} (m : List (Nat × β)) : Decidable (Smap.Sorted m) := by
  unfold Smap.Sorted; infer_instance

/-- Association-list lookup (first match). -/
def mget {β : Type} (k : Nat) : List (Nat × β) → Option β
  | [] => none
  | (k', v) :: rest => if k' = k then some v else mget k rest

/-- The `BTreeMap` `entry(k)` update: apply `f` to the present value, or to
the default `d` when absent, keeping keys sorted. -/
def mset {β : Type} (k : Nat) (f : β → β) (d : β) : List (Nat × β) → List (Nat × β)
  | [] => [(k, f d)]
  | (k', v) :: rest =>
    if k < k' then (k, f d) :: (k', v) :: rest
    else if k' = k then (k', f v) :: rest
    else (k', v) :: mset k f d rest

/-- Sorted merge, combining values at a shared key with `f` (left argument
from the first map). -/
def mmerge {β : Type} (f : β → β → β) : List (Nat × β) → List (Nat × β) → List (Nat × β)
  | [], ys => ys
  | x :: xs, [] => x :: xs
  | (k₁, v₁) :: xs, (k₂, v₂) :: ys =>
    if k₁ < k₂ then (k₁, v₁) :: mmerge f xs ((k₂, v₂) :: ys)
    else if k₂ < k₁ then (k₂, v₂) :: mmerge f ((k₁, v₁) :: xs) ys
    else (k₁, f v₁ v₂) :: mmerge f xs ys
termination_by xs ys => xs.length + ys.length

/-- Pointwise combination of optional values, as `mmerge` acts on lookups. -/
def ocomb {β : Type} (f : β → β → β) : Option β → Option β → Option β
  | some a, some b => some (f a b)
  | some a, none => some a
  | none, ob => ob

end PP

namespace PP

/-! ## Sorted association list lemmas -/

theorem mget_eq_none {β : Type} {m : List (Nat × β)} {k : Nat}
    (h : ∀ p ∈ m, p.1 ≠ k) : mget k m = none := by
  induction m with
  | nil => rfl
  | cons p rest ih =>
    obtain ⟨k', v⟩ := p
    simp only [mget]
    rw [if_neg (h (k', v) (List.mem_cons_self _ _))]
    exact ih fun q hq => h q (List.mem_cons_of_mem _ hq)

theorem mem_of_mget_eq_some {β : Type} {m : List (Nat × β)} {k : Nat} {v : β}
    (h : mget k m = some v) : (k, v) ∈ m := by
  induction m with
  | nil => simp [mget] at h
  | cons p rest ih =>
    obtain ⟨k', v'⟩ := p
    by_cases hk : k' = k
    · subst hk
      rw [mget, if_pos rfl] at h
      exact Option.some.inj h ▸ List.mem_cons_self _ _
    · rw [mget, if_neg hk] at h
      exact List.mem_cons_of_mem _ (ih h)

theorem mget_tail_none {β : Type} {m : List (Nat × β)} {k : Nat} {v : β}
    (h : Smap.Sorted ((k, v) :: m)) : mget k m = none :=
  mget_eq_none fun p hp => ((List.pairwise_cons.mp h).1 p hp).ne'

theorem mget_none_of_lt_head {β : Type} {m : List (Nat × β)} {k k' : Nat} {v : β}
    (h : Smap.Sorted ((k', v) :: m)) (hk : k < k') : mget k ((k', v) :: m) = none := by
  refine mget_eq_none fun p hp => ?_
  rcases List.mem_cons.mp hp with rfl | hp
  · exact hk.ne'
  · exact (hk.trans ((List.pairwise_cons.mp h).1 p hp)).ne'

theorem mem_mset {β : Type} {m : List (Nat × β)} {k : Nat} {f : β → β} {d : β}
    {p : Nat × β} (h : p ∈ mset k f d m) :
    p ∈ m ∨ p.1 = k ∧ (p.2 = f d ∨ ∃ v, (k, v) ∈ m ∧ p.2 = f v) := by
  induction m with
  | nil =>
    simp only [mset, List.mem_singleton] at h
    subst h
    exact Or.inr ⟨rfl, Or.inl rfl⟩
  | cons q rest ih =>
    obtain ⟨k', v⟩ := q
    simp only [mset] at h
    by_cases h1 : k < k'
    · rw [if_pos h1] at h
      rcases List.mem_cons.mp h with rfl | h
      · exact Or.inr ⟨rfl, Or.inl rfl⟩
      · exact Or.inl h
    · rw [if_neg h1] at h
      by_cases h2 : k' = k
      · rw [if_pos h2] at h
        rcases List.mem_cons.mp h with rfl | h
        · exact Or.inr ⟨h2.symm ▸ rfl, Or.inr ⟨v, h2 ▸ List.mem_cons_self _ _, rfl⟩⟩
        · exact Or.inl (List.mem_cons_of_mem _ h)
      · rw [if_neg h2] at h
        rcases List.mem_cons.mp h with rfl | h
        · exact Or.inl (List.mem_cons_self _ _)
        · rcases ih h with h | ⟨hk, hv⟩
          · exact Or.inl (List.mem_cons_of_mem _ h)
          · refine Or.inr ⟨hk, ?_⟩
            rcases hv with hv | ⟨w, hw, hv⟩
            · exact Or.inl hv
            · exact Or.inr ⟨w, List.mem_cons_of_mem _ hw, hv⟩

theorem mset_sorted {β : Type} {m : List (Nat × β)} (k : Nat) (f : β → β) (d : β)
    (h : Smap.Sorted m) : Smap.Sorted (mset k f d m) := by
  induction m with
  | nil => simp [mset, Smap.Sorted]
  | cons q rest ih =>
    obtain ⟨k', v⟩ := q
    obtain ⟨h1, h2⟩ := List.pairwise_cons.mp h
    simp only [mset]
    by_cases hlt : k < k'
    · rw [if_pos hlt]
      refine List.pairwise_cons.mpr ⟨?_, h⟩
      intro p hp
      rcases List.mem_cons.mp hp with rfl | hp
      · exact hlt
      · exact hlt.trans (h1 p hp)
    · rw [if_neg hlt]
      by_cases heq : k' = k
      · rw [if_pos heq]
        exact List.pairwise_cons.mpr ⟨h1, h2⟩
      · rw [if_neg heq]
        refine List.pairwise_cons.mpr ⟨?_, ih h2⟩
        intro p hp
        rcases mem_mset hp with hp | ⟨hk, _⟩
        · exact h1 p hp
        · rw [hk]
          omega

theorem mget_mset {β : Type} {m : List (Nat × β)} (k k' : Nat) (f : β → β) (d : β)
    (h : Smap.Sorted m) :
    mget k' (mset k f d m) =
      if k' = k then some (f ((mget k m).getD d)) else mget k' m := by
  induction m with
  | nil =>
    by_cases hk : k' = k
    · subst hk; simp [mset, mget]
    · have hk' : ¬k = k' := fun hh => hk hh.symm
      simp [mset, mget, hk, hk']
  | cons q rest ih =>
    obtain ⟨k₀, v⟩ := q
    obtain ⟨h1, h2⟩ := List.pairwise_cons.mp h
    simp only [mset]
    by_cases hlt : k < k₀
    · rw [if_pos hlt]
      by_cases hk : k' = k
      · subst hk
        rw [if_pos rfl, mget_none_of_lt_head h hlt, mget, if_pos rfl]
        simp
      · rw [mget, if_neg fun hh => hk hh.symm, if_neg hk]
    · rw [if_neg hlt]
      by_cases heq : k₀ = k
      · subst heq
        rw [if_pos rfl]
        by_cases hk : k' = k₀
        · subst hk
          rw [if_pos rfl, mget, if_pos rfl, mget, if_pos rfl]
          simp
        · have hk' : ¬k₀ = k' := fun hh => hk hh.symm
          rw [if_neg hk, mget, if_neg hk', mget, if_neg hk']
      · rw [if_neg heq]
        by_cases hk : k' = k
        · subst hk
          rw [if_pos rfl, mget, if_neg heq, ih h2, if_pos rfl, mget, if_neg heq]
        · rw [if_neg hk, mget, mget, ih h2, if_neg hk]

theorem mem_mmerge {β : Type} (f : β → β → β) :
    ∀ (xs ys : List (Nat × β)) (p : Nat × β), p ∈ mmerge f xs ys →
      p ∈ xs ∨ p ∈ ys ∨ ∃ v₁ v₂, (p.1, v₁) ∈ xs ∧ (p.1, v₂) ∈ ys ∧ p.2 = f v₁ v₂
  | [], ys, p, h => by
    rw [mmerge] at h
    exact Or.inr (Or.inl h)
  | x :: xs, [], p, h => by
    rw [mmerge] at h
    exact Or.inl h
  | (k₁, v₁) :: xs, (k₂, v₂) :: ys, p, h => by
    rw [mmerge] at h
    by_cases h1 : k₁ < k₂
    · rw [if_pos h1] at h
      rcases List.mem_cons.mp h with rfl | h
      · exact Or.inl (List.mem_cons_self _ _)
      · rcases mem_mmerge f xs ((k₂, v₂) :: ys) p h with h | h | ⟨w₁, w₂, hw₁, hw₂, hv⟩
        · exact Or.inl (List.mem_cons_of_mem _ h)
        · exact Or.inr (Or.inl h)
        · exact Or.inr (Or.inr ⟨w₁, w₂, List.mem_cons_of_mem _ hw₁, hw₂, hv⟩)
    · rw [if_neg h1] at h
      by_cases h2 : k₂ < k₁
      · rw [if_pos h2] at h
        rcases List.mem_cons.mp h with rfl | h
        · exact Or.inr (Or.inl (List.mem_cons_self _ _))
        · rcases mem_mmerge f ((k₁, v₁) :: xs) ys p h with h | h | ⟨w₁, w₂, hw₁, hw₂, hv⟩
          · exact Or.inl h
          · exact Or.inr (Or.inl (List.mem_cons_of_mem _ h))
          · exact Or.inr (Or.inr ⟨w₁, w₂, hw₁, List.mem_cons_of_mem _ hw₂, hv⟩)
      · rw [if_neg h2] at h
        have hk : k₁ = k₂ := by omega
        rcases List.mem_cons.mp h with rfl | h
        · exact Or.inr (Or.inr ⟨v₁, v₂, List.mem_cons_self _ _, hk ▸ List.mem_cons_self _ _, rfl⟩)
        · rcases mem_mmerge f xs ys p h with h | h | ⟨w₁, w₂, hw₁, hw₂, hv⟩
          · exact Or.inl (List.mem_cons_of_mem _ h)
          · exact Or.inr (Or.inl (List.mem_cons_of_mem _ h))
          · exact Or.inr (Or.inr ⟨w₁, w₂, List.mem_cons_of_mem _ hw₁, List.mem_cons_of_mem _ hw₂, hv⟩)
termination_by xs ys => xs.length + ys.length

theorem mmerge_sorted {β : Type} (f : β → β → β) :
    ∀ (xs ys : List (Nat × β)), Smap.Sorted xs → Smap.Sorted ys →
      Smap.Sorted (mmerge f xs ys)
  | [], ys, _, hys => by rwa [mmerge]
  | x :: xs, [], hxs, _ => by rwa [mmerge]
  | (k₁, v₁) :: xs, (k₂, v₂) :: ys, hxs, hys => by
    obtain ⟨hx1, hx2⟩ := List.pairwise_cons.mp hxs
    obtain ⟨hy1, hy2⟩ := List.pairwise_cons.mp hys
    rw [mmerge]
    by_cases h1 : k₁ < k₂
    · rw [if_pos h1]
      refine List.pairwise_cons.mpr ⟨?_, mmerge_sorted f xs ((k₂, v₂) :: ys) hx2 hys⟩
      intro p hp
      rcases mem_mmerge f _ _ p hp with hp | hp | ⟨w₁, _, hw₁, _, _⟩
      · exact hx1 p hp
      · rcases List.mem_cons.mp hp with rfl | hp
        · exact h1
        · exact h1.trans (hy1 p hp)
      · exact hx1 (p.1, w₁) hw₁
    · rw [if_neg h1]
      by_cases h2 : k₂ < k₁
      · rw [if_pos h2]
        refine List.pairwise_cons.mpr ⟨?_, mmerge_sorted f ((k₁, v₁) :: xs) ys hxs hy2⟩
        intro p hp
        rcases mem_mmerge f _ _ p hp with hp | hp | ⟨_, w₂, _, hw₂, _⟩
        · rcases List.mem_cons.mp hp with rfl | hp
          · exact h2
          · exact h2.trans (hx1 p hp)
        · exact hy1 p hp
        · exact hy1 (p.1, w₂) hw₂
      · rw [if_neg h2]
        have hk : k₁ = k₂ := by omega
        refine List.pairwise_cons.mpr ⟨?_, mmerge_sorted f xs ys hx2 hy2⟩
        intro p hp
        rcases mem_mmerge f _ _ p hp with hp | hp | ⟨w₁, _, hw₁, _, _⟩
        · exact hx1 p hp
        · exact hk ▸ hy1 p hp
        · exact hx1 (p.1, w₁) hw₁
termination_by xs ys => xs.length + ys.length

theorem mget_mmerge {β : Type} (f : β → β → β) :
    ∀ (xs ys : List (Nat × β)), Smap.Sorted xs → Smap.Sorted ys → ∀ (k : Nat),
      mget k (mmerge f xs ys) = ocomb f (mget k xs) (mget k ys)
  | [], ys, _, hys, k => by
    rw [mmerge]
    cases hg : mget k ys <;> simp [mget, ocomb]
  | x :: xs, [], hxs, _, k => by
    rw [mmerge]
    cases hg : mget k (x :: xs) <;> simp [hg, mget, ocomb]
  | (k₁, v₁) :: xs, (k₂, v₂) :: ys, hxs, hys, k => by
    obtain ⟨hx1, hx2⟩ := List.pairwise_cons.mp hxs
    obtain ⟨hy1, hy2⟩ := List.pairwise_cons.mp hys
    rw [mmerge]
    by_cases h1 : k₁ < k₂
    · rw [if_pos h1]
      by_cases hk : k₁ = k
      · subst hk
        rw [mget, if_pos rfl, mget, if_pos rfl, mget_none_of_lt_head hys h1]
        rfl
      · have hx : mget k ((k₁, v₁) :: xs) = mget k xs := by rw [mget, if_neg hk]
        rw [mget, if_neg hk, hx, mget_mmerge f xs ((k₂, v₂) :: ys) hx2 hys k]
    · rw [if_neg h1]
      by_cases h2 : k₂ < k₁
      · rw [if_pos h2]
        by_cases hk : k₂ = k
        · subst hk
          rw [mget, if_pos rfl, mget_none_of_lt_head hxs h2, mget, if_pos rfl]
          rfl
        · have hy : mget k ((k₂, v₂) :: ys) = mget k ys := by rw [mget, if_neg hk]
          rw [mget, if_neg hk, hy, mget_mmerge f ((k₁, v₁) :: xs) ys hxs hy2 k]
      · rw [if_neg h2]
        have hkk : k₁ = k₂ := by omega
        subst hkk
        by_cases hk : k₁ = k
        · subst hk
          rw [mget, if_pos rfl, mget, if_pos rfl, mget, if_pos rfl]
          rfl
        · have hx : mget k ((k₁, v₁) :: xs) = mget k xs := by rw [mget, if_neg hk]
          have hy : mget k ((k₁, v₂) :: ys) = mget k ys := by rw [mget, if_neg hk]
          rw [mget, if_neg hk, hx, hy, mget_mmerge f xs ys hx2 hy2 k]
termination_by xs ys => xs.length + ys.length

theorem mext {β : Type} :
    ∀ {xs ys : List (Nat × β)}, Smap.Sorted xs → Smap.Sorted ys →
      (∀ k, mget k xs = mget k ys) → xs = ys
  | [], [], _, _, _ => rfl
  | [], (k, v) :: ys, _, _, h => by
    have := h k
    rw [mget, mget, if_pos rfl] at this
    exact absurd this (by simp)
  | (k, v) :: xs, [], _, _, h => by
    have := h k
    rw [mget, mget, if_pos rfl] at this
    exact absurd this (by simp)
  | (k₁, v₁) :: xs, (k₂, v₂) :: ys, hxs, hys, h => by
    have hk : k₁ = k₂ := by
      by_contra hne
      rcases Nat.lt_or_ge k₁ k₂ with hlt | hge
      · have := h k₁
        rw [mget, if_pos rfl, mget_none_of_lt_head hys hlt] at this
        exact absurd this (by simp)
      · have hlt : k₂ < k₁ := by omega
        have := h k₂
        rw [mget_none_of_lt_head hxs hlt, mget, if_pos rfl] at this
        exact absurd this.symm (by simp)
    subst hk
    have hv : v₁ = v₂ := by
      have := h k₁
      rw [mget, if_pos rfl, mget, if_pos rfl] at this
      exact Option.some.inj this
    subst hv
    have htail : ∀ k, mget k xs = mget k ys := by
      intro k
      by_cases hk : k₁ = k
      · subst hk
        rw [mget_tail_none hxs, mget_tail_none hys]
      · have := h k
        rwa [mget, if_neg hk, mget, if_neg hk] at this
    rw [mext (List.pairwise_cons.mp hxs).2 (List.pairwise_cons.mp hys).2 htail]



/-! ## Balance Ledger (`BalanceTree`)

Modelled from the spec: `batch.rs` is absent from `src/`. §4.2 describes the
Balance Ledger as a per-token map to `(total_deposited, total_withdrawn)`
accumulated by addition, with `has_debt` true iff some token has
`withdrawn > deposited`, a point-wise merge, and a commitment hash over the
canonically sorted `(token_hash, deposited, withdrawn)` triples. Totals are
unbounded naturals; the spec's arithmetic-overflow failure (sums leaving the
256-bit range) is not modelled, and no claim below concerns overflow. -/

/-- `TokenInfo` as a single map key: the derived lexicographic order on
`(origin_network : u32, origin_token_address : 20 bytes)` coincides with the
numeric order of `origin_network * 2^160 + origin_token_address` for
in-range fields, so a `BTreeMap` keyed by `TokenInfo` is a sorted map on
these keys. -/
def tokenKey (t : TokenInfo) : Nat :=
  t.origin_network * 2 ^ 160 + t.origin_token_address

/-- Recover the `TokenInfo` from its key (inverse of `tokenKey` in range). -/
def decodeKey (k : Nat) : TokenInfo :=
  ⟨k / 2 ^ 160, k % 2 ^ 160⟩

/-- A Balance Ledger: token key ↦ `(total_deposited, total_withdrawn)`. -/
abbrev BalanceTree := List (Nat × (Nat × Nat))

/-- `deposit`: add `amount` to the token's `total_deposited`, creating the
entry (zero totals) when absent. -/
def BalanceTree.deposit (bt : BalanceTree) (t : TokenInfo) (amount : Nat) : BalanceTree :=
  mset (tokenKey t) (fun p => (p.1 + amount, p.2)) (0, 0) bt

/-- `withdraw`: add `amount` to the token's `total_withdrawn`, creating the
entry (zero totals) when absent. -/
def BalanceTree.withdraw (bt : BalanceTree) (t : TokenInfo) (amount : Nat) : BalanceTree :=
  mset (tokenKey t) (fun p => (p.1, p.2 + amount)) (0, 0) bt

/-- `has_debt`: true iff some token entry has `withdrawn > deposited`. -/
def BalanceTree.has_debt (bt : BalanceTree) : Bool :=
  bt.any fun p => decide (p.2.1 < p.2.2)

/-- `merge`: point-wise sum of deposited and withdrawn totals per token. -/
def BalanceTree.merge (a b : BalanceTree) : BalanceTree :=
  mmerge (fun p q => (p.1 + q.1, p.2 + q.2)) a b

/-- The ledger commitment: keccak over the ascending
`(token_hash, deposited, withdrawn)` triples. -/
def BalanceTree.hash (bt : BalanceTree) : Digest :=
  keccak256_combine
    (bt.map fun p => TokenInfo.hash (decodeKey p.1) ++ beBytes 32 p.2.1 ++ beBytes 32 p.2.2)

/-! ## Network Ledger Map (`BalanceTreeByNetwork`), from `proof.rs` -/

/-- `BalanceTreeByNetwork`: `BTreeMap<NetworkId, BalanceTree>`. -/
abbrev BalanceTreeByNetwork := List (Nat × BalanceTree)

/-- `BalanceTreeByNetwork::new()`. -/
def BalanceTreeByNetwork.new : BalanceTreeByNetwork := []

/-- `BalanceTreeByNetwork::insert`: withdraw `amount` of the token on the
origin network's ledger, then deposit it on the destination network's ledger,
creating default (empty) ledgers on first touch. -/
def BalanceTreeByNetwork.insert (m : BalanceTreeByNetwork) (origin_network : NetworkId)
    (w : Withdrawal) : BalanceTreeByNetwork :=
  mset w.dest_network (fun bt => bt.deposit w.token_info w.amount) []
    (mset origin_network (fun bt => bt.withdraw w.token_info w.amount) [] m)

/-- `BalanceTreeByNetwork::merge`: per-network `BalanceTree::merge` on shared
keys; entries present in only one operand are inserted verbatim. -/
def BalanceTreeByNetwork.merge (a b : BalanceTreeByNetwork) : BalanceTreeByNetwork :=
  mmerge BalanceTree.merge a b

/-- Well-formed `BalanceTreeByNetwork`: the network map and every per-network
ledger have sorted keys (the `BTreeMap` representation invariant). -/
def BalanceTreeByNetwork.WF (m : BalanceTreeByNetwork) : Prop :=
  Smap.Sorted m ∧ ∀ p ∈ m, Smap.Sorted p.2

instance (m : BalanceTreeByNetwork) : Decidable (m.WF) := by
  unfold BalanceTreeByNetwork.WF; infer_instance

/-! ## Local exit accumulator and batches

Modelled from the spec: the `local_exit_tree` module is absent from `src/` and
the spec (§1, §3, §6) treats the accumulator as external, consumed only through
`add_leaf`/`get_root`, owning "a sequence of appended leaf hashes abstractly".
The root is modelled as a chained keccak commitment to that sequence, starting
from the all-zero digest for the empty accumulator; its algorithm is outside
the spec's scope and no claim depends on root values beyond evaluation. -/

structure LocalExitTree where
  leaves : List Digest
deriving DecidableEq

/-- `LocalExitTree::add_leaf`. -/
def LocalExitTree.add_leaf (t : LocalExitTree) (l : Digest) : LocalExitTree :=
  ⟨t.leaves ++ [l]⟩

/-- `LocalExitTree::get_root`. -/
def LocalExitTree.get_root (t : LocalExitTree) : Digest :=
  t.leaves.foldl (fun acc l => keccak256_combine [acc, l]) zeroDigest

/-- A `Batch` (certificate), modelled from the spec (§3) and the fields
`proof.rs` reads: the origin network, the declared prior exit tree and root,
the prior local balance ledger, and the ordered withdrawals. -/
structure Batch where
  origin_network : NetworkId
  prev_local_exit_tree : LocalExitTree
  prev_local_exit_root : Digest
  prev_local_balance_tree : BalanceTree
  withdrawals : List Withdrawal
deriving DecidableEq

/-! ## Proof generation, from `proof.rs` -/

/-- `ProofError`. -/
inductive ProofError where
  | InvalidLocalExitRoot (got : Digest) (expected : Digest)
  | NotEnoughBalance (debtors : List NetworkId)
deriving DecidableEq

abbrev ExitRoot := Digest
abbrev BalanceRoot := Digest

/-- `get_network_aggregate`: check the declared prior root, then append every
withdrawal's leaf hash to the exit tree and record it in the aggregate, which
starts as the single entry `origin_network ↦ prev_local_balance_tree`. -/
def get_network_aggregate (batch : Batch) :
    Except ProofError (ExitRoot × BalanceTreeByNetwork) :=
  let computed_root := batch.prev_local_exit_tree.get_root
  if computed_root ≠ batch.prev_local_exit_root then
    .error (.InvalidLocalExitRoot computed_root batch.prev_local_exit_root)
  else
    let r := batch.withdrawals.foldl
      (fun (a : LocalExitTree × BalanceTreeByNetwork) w =>
        (a.1.add_leaf w.hash, a.2.insert batch.origin_network w))
      (batch.prev_local_exit_tree, [(batch.origin_network, batch.prev_local_balance_tree)])
    .ok (r.1.get_root, r.2)

/-- `HashMap::insert` on an association-list model: the value under `k` is
replaced (iteration order of a `HashMap` is arbitrary; every use below is
order-insensitive in content). -/
def hmInsert {α : Type} (m : List (Nat × α)) (k : Nat) (v : α) : List (Nat × α) :=
  (m.filter fun p => decide (p.1 ≠ k)) ++ [(k, v)]

/-- The loop of `generate_network_balance_trees`: first error aborts,
otherwise each batch's aggregate is inserted under its origin network. -/
def gnbtAux (batches : List Batch) (m : List (Nat × (ExitRoot × BalanceTreeByNetwork))) :
    Except ProofError (List (Nat × (ExitRoot × BalanceTreeByNetwork))) :=
  match batches with
  | [] => .ok m
  | batch :: rest =>
    match get_network_aggregate batch with
    | .error e => .error e
    | .ok r => gnbtAux rest (hmInsert m batch.origin_network r)

/-- `generate_network_balance_trees`. -/
def generate_network_balance_trees (batches : List Batch) :
    Except ProofError (List (Nat × (ExitRoot × BalanceTreeByNetwork))) :=
  gnbtAux batches []

/-- `merge_balance_trees`: fold `BalanceTreeByNetwork::merge` over every
batch's aggregate. -/
def merge_balance_trees (aggregates : List (Nat × (ExitRoot × BalanceTreeByNetwork))) :
    BalanceTreeByNetwork :=
  aggregates.foldl (fun c p => c.merge p.2.2) BalanceTreeByNetwork.new

/-- `generate_full_proof`: build the per-batch aggregates, pool them, reject
with the ascending debtor list when any pooled network ledger has debt,
otherwise return each network's exit root (all-zero for networks with no
aggregate) and balance root. -/
def generate_full_proof (batches : List Batch) :
    Except ProofError (List (Nat × (ExitRoot × BalanceRoot))) :=
  match generate_network_balance_trees batches with
  | .error e => .error e
  | .ok aggregates =>
    let collated := merge_balance_trees aggregates
    let debtors := (collated.filter fun p => p.2.has_debt).map fun p => p.1
    if debtors.isEmpty then
      .ok (collated.map fun p =>
        (p.1, (((mget p.1 aggregates).map Prod.fst).getD zeroDigest, p.2.hash)))
    else
      .error (.NotEnoughBalance debtors)

end PP

namespace PP

/-! ## Local-policy certificate application

Modelled from the spec: §4.5 records two solvency-check policies from the
source history; only the Global one survives in `src/proof.rs`. The Local
policy's per-certificate application (spec §4.4 with the §4.4.3 local debt
check, errors from §7) is absent from `src/` and is modelled here from the
spec's words. -/

/-- A certificate as §3 defines it: the origin network, the declared prior
exit root, and the ordered withdrawals. -/
structure Certificate where
  origin_network : NetworkId
  prev_local_exit_root : Digest
  withdrawals : List Withdrawal
deriving DecidableEq

/-- Errors of single-certificate application (§4.4, §7). -/
inductive ApplyError where
  | InvalidLocalExitRoot (got : Digest) (expected : Digest)
  | HasDebt (network : NetworkId)
deriving DecidableEq

/-- Modelled from the spec (§4.4, Local policy of §4.5): validate the declared
prior root, apply every withdrawal to copies of the accumulator and ledger,
fail with `HasDebt` when the origin network's ledger entry has debt, and
otherwise commit the copies and return the new exit root. -/
def applyCertificateLocal (acc : LocalExitTree) (ledger : BalanceTreeByNetwork)
    (cert : Certificate) :
    Except ApplyError (LocalExitTree × BalanceTreeByNetwork × Digest) :=
  let got := acc.get_root
  if got ≠ cert.prev_local_exit_root then
    .error (.InvalidLocalExitRoot got cert.prev_local_exit_root)
  else
    let r := cert.withdrawals.foldl
      (fun (a : LocalExitTree × BalanceTreeByNetwork) w =>
        (a.1.add_leaf w.hash, a.2.insert cert.origin_network w))
      (acc, ledger)
    if BalanceTree.has_debt ((mget cert.origin_network r.2).getD []) then
      .error (.HasDebt cert.origin_network)
    else
      .ok (r.1, r.2, r.1.get_root)

/-! ## Observation functions on ledgers -/

/-- The network `n` ledger of a Network Ledger Map (empty when absent). -/
def ledgerOf (m : BalanceTreeByNetwork) (n : NetworkId) : BalanceTree :=
  (mget n m).getD []

/-- Total deposited for token `t` on network `n` (0 when absent). -/
def dep (m : BalanceTreeByNetwork) (n : NetworkId) (t : TokenInfo) : Nat :=
  ((mget (tokenKey t) (ledgerOf m n)).getD (0, 0)).1

/-- Total withdrawn for token `t` on network `n` (0 when absent). -/
def wdr (m : BalanceTreeByNetwork) (n : NetworkId) (t : TokenInfo) : Nat :=
  ((mget (tokenKey t) (ledgerOf m n)).getD (0, 0)).2

/-- In-range `TokenInfo` fields, as the Rust `u32`/20-byte types guarantee. -/
def TokenInfo.Canonical (t : TokenInfo) : Prop :=
  t.origin_network < 2 ^ 32 ∧ t.origin_token_address < 2 ^ 160

instance (t : TokenInfo) : Decidable t.Canonical := by
  unfold TokenInfo.Canonical; infer_instance

theorem tokenKey_inj {a b : TokenInfo} (ha : a.Canonical) (hb : b.Canonical)
    (h : tokenKey a = tokenKey b) : a = b := by
  obtain ⟨a1, a2⟩ := a
  obtain ⟨b1, b2⟩ := b
  obtain ⟨-, ha2⟩ := ha
  obtain ⟨-, hb2⟩ := hb
  simp only [tokenKey] at h
  have ha2' : a2 < 2 ^ 160 := ha2
  have hb2' : b2 < 2 ^ 160 := hb2
  have kpos : 0 < 2 ^ 160 := by positivity
  have e : a2 + a1 * 2 ^ 160 = b2 + b1 * 2 ^ 160 := by
    calc a2 + a1 * 2 ^ 160 = a1 * 2 ^ 160 + a2 := Nat.add_comm _ _
    _ = b1 * 2 ^ 160 + b2 := h
    _ = b2 + b1 * 2 ^ 160 := Nat.add_comm _ _
  have d1 : (a2 + a1 * 2 ^ 160) / 2 ^ 160 = (b2 + b1 * 2 ^ 160) / 2 ^ 160 := by rw [e]
  rw [Nat.add_mul_div_right _ _ kpos, Nat.add_mul_div_right _ _ kpos,
    Nat.div_eq_of_lt ha2', Nat.div_eq_of_lt hb2'] at d1
  have d2 : (a2 + a1 * 2 ^ 160) % 2 ^ 160 = (b2 + b1 * 2 ^ 160) % 2 ^ 160 := by rw [e]
  rw [Nat.add_mul_mod_self_right, Nat.add_mul_mod_self_right,
    Nat.mod_eq_of_lt ha2', Nat.mod_eq_of_lt hb2'] at d2
  simp only [TokenInfo.mk.injEq]
  exact ⟨by simpa using d1, d2⟩

end PP

namespace PP

/-! ## Ledger lookup lemmas -/

theorem ledgerOf_sorted {m : BalanceTreeByNetwork} (hwf : m.WF) (n : NetworkId) :
    Smap.Sorted (ledgerOf m n) := by
  unfold ledgerOf
  cases hg : mget n m with
  | none => exact List.Pairwise.nil
  | some v => exact hwf.2 (n, v) (mem_of_mget_eq_some hg)

theorem mget_deposit {bt : BalanceTree} (u : TokenInfo) (amt : Nat) (tk : Nat)
    (hs : Smap.Sorted bt) :
    mget tk (bt.deposit u amt) =
      if tk = tokenKey u then
        some (((mget (tokenKey u) bt).getD (0, 0)).1 + amt,
          ((mget (tokenKey u) bt).getD (0, 0)).2)
      else mget tk bt := by
  unfold BalanceTree.deposit
  rw [mget_mset _ _ _ _ hs]

theorem mget_withdraw {bt : BalanceTree} (u : TokenInfo) (amt : Nat) (tk : Nat)
    (hs : Smap.Sorted bt) :
    mget tk (bt.withdraw u amt) =
      if tk = tokenKey u then
        some (((mget (tokenKey u) bt).getD (0, 0)).1,
          ((mget (tokenKey u) bt).getD (0, 0)).2 + amt)
      else mget tk bt := by
  unfold BalanceTree.withdraw
  rw [mget_mset _ _ _ _ hs]

theorem deposit_sorted {bt : BalanceTree} (u : TokenInfo) (amt : Nat)
    (hs : Smap.Sorted bt) : Smap.Sorted (bt.deposit u amt) :=
  mset_sorted _ _ _ hs

theorem withdraw_sorted {bt : BalanceTree} (u : TokenInfo) (amt : Nat)
    (hs : Smap.Sorted bt) : Smap.Sorted (bt.withdraw u amt) :=
  mset_sorted _ _ _ hs

theorem ledgerOf_insert {m : BalanceTreeByNetwork} (n : NetworkId) (w : Withdrawal)
    (k : NetworkId) (hs : Smap.Sorted m) :
    ledgerOf (m.insert n w) k =
      if k = w.dest_network then
        BalanceTree.deposit
          (if k = n then (ledgerOf m k).withdraw w.token_info w.amount else ledgerOf m k)
          w.token_info w.amount
      else if k = n then (ledgerOf m k).withdraw w.token_info w.amount
      else ledgerOf m k := by
  have hs1 := mset_sorted n (fun bt => BalanceTree.withdraw bt w.token_info w.amount)
    ([] : BalanceTree) hs
  unfold BalanceTreeByNetwork.insert ledgerOf
  simp only [mget_mset _ _ _ _ hs1, mget_mset _ _ _ _ hs]
  by_cases h1 : k = w.dest_network
  · by_cases h2 : k = n
    · subst h2
      simp [← h1]
    · simp [← h1, h2]
  · by_cases h2 : k = n
    · subst h2
      simp [h1]
    · simp [h1, h2]

theorem insert_sorted {m : BalanceTreeByNetwork} (n : NetworkId) (w : Withdrawal)
    (hs : Smap.Sorted m) : Smap.Sorted (m.insert n w) :=
  mset_sorted _ _ _ (mset_sorted _ _ _ hs)

theorem insert_wf {m : BalanceTreeByNetwork} (n : NetworkId) (w : Withdrawal)
    (hwf : m.WF) : (m.insert n w).WF := by
  refine ⟨insert_sorted n w hwf.1, ?_⟩
  intro p hp
  have hval : ∀ q ∈ mset n (fun bt => BalanceTree.withdraw bt w.token_info w.amount)
      ([] : BalanceTree) m, Smap.Sorted q.2 := by
    intro q hq
    rcases mem_mset hq with hq | ⟨_, hv⟩
    · exact hwf.2 q hq
    · rcases hv with hv | ⟨v, hv, he⟩
      · rw [hv]; exact withdraw_sorted _ _ List.Pairwise.nil
      · rw [he]; exact withdraw_sorted _ _ (hwf.2 (n, v) hv)
  rcases mem_mset hp with hp | ⟨_, hv⟩
  · exact hval p hp
  · rcases hv with hv | ⟨v, hv, he⟩
    · rw [hv]; exact deposit_sorted _ _ List.Pairwise.nil
    · rw [he]; exact deposit_sorted _ _ (hval (w.dest_network, v) hv)

end PP

namespace PP

/-- Deposited total of token `t` in a single ledger. -/
def depBT (bt : BalanceTree) (t : TokenInfo) : Nat :=
  ((mget (tokenKey t) bt).getD (0, 0)).1

/-- Withdrawn total of token `t` in a single ledger. -/
def wdrBT (bt : BalanceTree) (t : TokenInfo) : Nat :=
  ((mget (tokenKey t) bt).getD (0, 0)).2

theorem dep_eq_depBT (m : BalanceTreeByNetwork) (n : NetworkId) (t : TokenInfo) :
    dep m n t = depBT (ledgerOf m n) t := rfl

theorem wdr_eq_wdrBT (m : BalanceTreeByNetwork) (n : NetworkId) (t : TokenInfo) :
    wdr m n t = wdrBT (ledgerOf m n) t := rfl

theorem depBT_deposit {bt : BalanceTree} {t u : TokenInfo} (a : Nat)
    (hs : Smap.Sorted bt) (ht : t.Canonical) (hu : u.Canonical) :
    depBT (bt.deposit u a) t = depBT bt t + if t = u then a else 0 := by
  unfold depBT
  rw [mget_deposit _ _ _ hs]
  by_cases h : t = u
  · subst h
    simp
  · have hk : ¬tokenKey t = tokenKey u := fun hh => h (tokenKey_inj ht hu hh)
    rw [if_neg hk, if_neg h]
    omega

theorem wdrBT_deposit {bt : BalanceTree} {t u : TokenInfo} (a : Nat)
    (hs : Smap.Sorted bt) (ht : t.Canonical) (hu : u.Canonical) :
    wdrBT (bt.deposit u a) t = wdrBT bt t := by
  unfold wdrBT
  rw [mget_deposit _ _ _ hs]
  by_cases h : t = u
  · subst h
    simp
  · have hk : ¬tokenKey t = tokenKey u := fun hh => h (tokenKey_inj ht hu hh)
    rw [if_neg hk]

theorem depBT_withdraw {bt : BalanceTree} {t u : TokenInfo} (a : Nat)
    (hs : Smap.Sorted bt) (ht : t.Canonical) (hu : u.Canonical) :
    depBT (bt.withdraw u a) t = depBT bt t := by
  unfold depBT
  rw [mget_withdraw _ _ _ hs]
  by_cases h : t = u
  · subst h
    simp
  · have hk : ¬tokenKey t = tokenKey u := fun hh => h (tokenKey_inj ht hu hh)
    rw [if_neg hk]

theorem wdrBT_withdraw {bt : BalanceTree} {t u : TokenInfo} (a : Nat)
    (hs : Smap.Sorted bt) (ht : t.Canonical) (hu : u.Canonical) :
    wdrBT (bt.withdraw u a) t = wdrBT bt t + if t = u then a else 0 := by
  unfold wdrBT
  rw [mget_withdraw _ _ _ hs]
  by_cases h : t = u
  · subst h
    simp
  · have hk : ¬tokenKey t = tokenKey u := fun hh => h (tokenKey_inj ht hu hh)
    rw [if_neg hk, if_neg h]
    omega

end PP

namespace PP

/-- C5: on a Network Ledger Map, `insert(n, w)` adds `w.amount` to the
withdrawn total of `w.token_info` on network `n` and to the deposited total of
`w.token_info` on `w.dest_network`, creating an absent network entry as an
empty default ledger, and leaves every other network's and token's totals
unchanged. -/
theorem C5_insert_dual_effect (m : BalanceTreeByNetwork) (n : NetworkId) (w : Withdrawal)
    (hwf : m.WF) (hw : w.token_info.Canonical) (k : NetworkId) (t : TokenInfo)
    (ht : t.Canonical) :
    dep (m.insert n w) k t
        = dep m k t + (if k = w.dest_network ∧ t = w.token_info then w.amount else 0)
      ∧ wdr (m.insert n w) k t
        = wdr m k t + (if k = n ∧ t = w.token_info then w.amount else 0)
      ∧ ((mget k (m.insert n w)).isSome
          ↔ (mget k m).isSome ∨ k = n ∨ k = w.dest_network) := by
  have hLk : Smap.Sorted (ledgerOf m k) := ledgerOf_sorted hwf k
  refine ⟨?_, ?_, ?_⟩
  · rw [dep_eq_depBT, dep_eq_depBT, ledgerOf_insert n w k hwf.1]
    by_cases h1 : k = w.dest_network
    · rw [if_pos h1]
      by_cases h2 : k = n
      · rw [if_pos h2, depBT_deposit _ (withdraw_sorted _ _ hLk) ht hw,
          depBT_withdraw _ hLk ht hw]
        simp [h1]
      · rw [if_neg h2, depBT_deposit _ hLk ht hw]
        simp [h1]
    · rw [if_neg h1]
      have hz : (if k = w.dest_network ∧ t = w.token_info then w.amount else 0) = 0 := by
        simp [h1]
      rw [hz]
      by_cases h2 : k = n
      · rw [if_pos h2, depBT_withdraw _ hLk ht hw]
        omega
      · rw [if_neg h2]
        omega
  · rw [wdr_eq_wdrBT, wdr_eq_wdrBT, ledgerOf_insert n w k hwf.1]
    by_cases h1 : k = w.dest_network
    · rw [if_pos h1]
      by_cases h2 : k = n
      · rw [if_pos h2, wdrBT_deposit _ (withdraw_sorted _ _ hLk) ht hw,
          wdrBT_withdraw _ hLk ht hw]
        simp [h2]
      · rw [if_neg h2, wdrBT_deposit _ hLk ht hw]
        simp [h2]
    · rw [if_neg h1]
      by_cases h2 : k = n
      · rw [if_pos h2, wdrBT_withdraw _ hLk ht hw]
        simp [h2]
      · rw [if_neg h2]
        simp [h2]
  · have hs1 := mset_sorted n (fun bt => BalanceTree.withdraw bt w.token_info w.amount)
      ([] : BalanceTree) hwf.1
    unfold BalanceTreeByNetwork.insert
    rw [mget_mset _ _ _ _ hs1]
    by_cases h1 : k = w.dest_network
    · simp [h1]
    · rw [if_neg h1, mget_mset _ _ _ _ hwf.1]
      by_cases h2 : k = n
      · simp [h1, h2]
      · simp [h1, h2]

end PP

namespace PP

/-! ## Merge algebra -/

theorem btMerge_sorted {a b : BalanceTree} (ha : Smap.Sorted a) (hb : Smap.Sorted b) :
    Smap.Sorted (a.merge b) :=
  mmerge_sorted _ _ _ ha hb

theorem btMerge_comm {a b : BalanceTree} (ha : Smap.Sorted a) (hb : Smap.Sorted b) :
    a.merge b = b.merge a := by
  refine mext (btMerge_sorted ha hb) (btMerge_sorted hb ha) fun k => ?_
  unfold BalanceTree.merge
  rw [mget_mmerge _ _ _ ha hb, mget_mmerge _ _ _ hb ha]
  cases mget k a <;> cases mget k b <;> simp [ocomb, Nat.add_comm]

theorem btMerge_assoc {a b c : BalanceTree} (ha : Smap.Sorted a) (hb : Smap.Sorted b)
    (hc : Smap.Sorted c) : (a.merge b).merge c = a.merge (b.merge c) := by
  refine mext (btMerge_sorted (btMerge_sorted ha hb) hc)
    (btMerge_sorted ha (btMerge_sorted hb hc)) fun k => ?_
  unfold BalanceTree.merge
  rw [mget_mmerge _ _ _ (mmerge_sorted _ _ _ ha hb) hc,
    mget_mmerge _ _ _ ha (mmerge_sorted _ _ _ hb hc),
    mget_mmerge _ _ _ ha hb, mget_mmerge _ _ _ hb hc]
  cases mget k a <;> cases mget k b <;> cases mget k c <;>
    simp [ocomb, Nat.add_assoc]

theorem btn_merge_wf {a b : BalanceTreeByNetwork} (ha : a.WF) (hb : b.WF) :
    (a.merge b).WF := by
  refine ⟨mmerge_sorted _ _ _ ha.1 hb.1, ?_⟩
  intro p hp
  rcases mem_mmerge _ _ _ p hp with hp | hp | ⟨v₁, v₂, hv₁, hv₂, he⟩
  · exact ha.2 p hp
  · exact hb.2 p hp
  · rw [he]
    exact btMerge_sorted (ha.2 (p.1, v₁) hv₁) (hb.2 (p.1, v₂) hv₂)

theorem btnMerge_lookup {a b : BalanceTreeByNetwork} (ha : a.WF) (hb : b.WF) (k : Nat) :
    mget k (a.merge b) = ocomb BalanceTree.merge (mget k a) (mget k b) :=
  mget_mmerge _ _ _ ha.1 hb.1 k

theorem btnMerge_comm {a b : BalanceTreeByNetwork} (ha : a.WF) (hb : b.WF) :
    a.merge b = b.merge a := by
  refine mext (btn_merge_wf ha hb).1 (btn_merge_wf hb ha).1 fun k => ?_
  rw [btnMerge_lookup ha hb, btnMerge_lookup hb ha]
  cases hga : mget k a with
  | none => cases mget k b <;> simp [ocomb]
  | some va =>
    cases hgb : mget k b with
    | none => simp [ocomb]
    | some vb =>
      simp only [ocomb]
      rw [btMerge_comm (ha.2 (k, va) (mem_of_mget_eq_some hga))
        (hb.2 (k, vb) (mem_of_mget_eq_some hgb))]

theorem btnMerge_assoc {a b c : BalanceTreeByNetwork} (ha : a.WF) (hb : b.WF) (hc : c.WF) :
    (a.merge b).merge c = a.merge (b.merge c) := by
  refine mext (btn_merge_wf (btn_merge_wf ha hb) hc).1
    (btn_merge_wf ha (btn_merge_wf hb hc)).1 fun k => ?_
  rw [btnMerge_lookup (btn_merge_wf ha hb) hc, btnMerge_lookup ha (btn_merge_wf hb hc),
    btnMerge_lookup ha hb, btnMerge_lookup hb hc]
  cases hga : mget k a with
  | none =>
    cases mget k b <;> cases mget k c <;> simp [ocomb]
  | some va =>
    have hsa := ha.2 (k, va) (mem_of_mget_eq_some hga)
    cases hgb : mget k b with
    | none => cases mget k c <;> simp [ocomb]
    | some vb =>
      have hsb := hb.2 (k, vb) (mem_of_mget_eq_some hgb)
      cases hgc : mget k c with
      | none => simp [ocomb]
      | some vc =>
        have hsc := hc.2 (k, vc) (mem_of_mget_eq_some hgc)
        simp only [ocomb]
        rw [btMerge_assoc hsa hsb hsc]

end PP

namespace PP

theorem btMerge_nil_right (a : BalanceTree) : a.merge [] = a := by
  unfold BalanceTree.merge
  cases a
  · rw [mmerge]
  · rw [mmerge]

theorem btMerge_nil_left (b : BalanceTree) : BalanceTree.merge [] b = b := by
  unfold BalanceTree.merge
  rw [mmerge]

theorem ledgerOf_merge {a b : BalanceTreeByNetwork} (ha : a.WF) (hb : b.WF)
    (n : NetworkId) :
    ledgerOf (a.merge b) n = (ledgerOf a n).merge (ledgerOf b n) := by
  unfold ledgerOf
  rw [btnMerge_lookup ha hb]
  cases mget n a with
  | none => cases mget n b <;> simp [ocomb, btMerge_nil_left]
  | some va =>
    cases mget n b with
    | none => simp [ocomb, btMerge_nil_right]
    | some vb => simp [ocomb]

theorem depBT_btMerge {a b : BalanceTree} (ha : Smap.Sorted a) (hb : Smap.Sorted b)
    (t : TokenInfo) : depBT (a.merge b) t = depBT a t + depBT b t := by
  unfold depBT BalanceTree.merge
  rw [mget_mmerge _ _ _ ha hb]
  cases mget (tokenKey t) a <;> cases mget (tokenKey t) b <;> simp [ocomb]

theorem wdrBT_btMerge {a b : BalanceTree} (ha : Smap.Sorted a) (hb : Smap.Sorted b)
    (t : TokenInfo) : wdrBT (a.merge b) t = wdrBT a t + wdrBT b t := by
  unfold wdrBT BalanceTree.merge
  rw [mget_mmerge _ _ _ ha hb]
  cases mget (tokenKey t) a <;> cases mget (tokenKey t) b <;> simp [ocomb]

/-- C6: `BalanceTreeByNetwork::merge` is associative and commutative as ledger
content (on the canonical sorted representation, equality is content
equality), the merged map combines lookups point-wise with entries present in
only one operand inserted verbatim, and the merged per-network, per-token
deposited/withdrawn totals are the point-wise sums. -/
theorem C6_merge_algebra (A B C : BalanceTreeByNetwork) (hA : A.WF) (hB : B.WF)
    (hC : C.WF) :
    (A.merge B).merge C = A.merge (B.merge C)
      ∧ A.merge B = B.merge A
      ∧ (∀ k, mget k (A.merge B) = ocomb BalanceTree.merge (mget k A) (mget k B))
      ∧ ∀ n t, dep (A.merge B) n t = dep A n t + dep B n t
          ∧ wdr (A.merge B) n t = wdr A n t + wdr B n t := by
  refine ⟨btnMerge_assoc hA hB hC, btnMerge_comm hA hB, btnMerge_lookup hA hB, ?_⟩
  intro n t
  rw [dep_eq_depBT, dep_eq_depBT, dep_eq_depBT, wdr_eq_wdrBT, wdr_eq_wdrBT,
    wdr_eq_wdrBT, ledgerOf_merge hA hB]
  exact ⟨depBT_btMerge (ledgerOf_sorted hA n) (ledgerOf_sorted hB n) t,
    wdrBT_btMerge (ledgerOf_sorted hA n) (ledgerOf_sorted hB n) t⟩

end PP

namespace PP

/-- C3: `get_network_aggregate` fails with
`InvalidLocalExitRoot{got = recomputed root, expected = declared root}` iff
the recomputed root of the prior exit tree differs from the declared
`prev_local_exit_root`, and that is the only error it ever returns (so on
failure the withdrawal loop is never reached and no aggregate is produced). -/
theorem C3_root_validation (batch : Batch) :
    (get_network_aggregate batch
        = .error (.InvalidLocalExitRoot batch.prev_local_exit_tree.get_root
            batch.prev_local_exit_root)
      ↔ batch.prev_local_exit_tree.get_root ≠ batch.prev_local_exit_root)
    ∧ ∀ e, get_network_aggregate batch = .error e →
        e = .InvalidLocalExitRoot batch.prev_local_exit_tree.get_root
          batch.prev_local_exit_root := by
  constructor
  · unfold get_network_aggregate
    by_cases h : batch.prev_local_exit_tree.get_root ≠ batch.prev_local_exit_root
    · simp [h]
    · simp [h]
  · intro e he
    unfold get_network_aggregate at he
    by_cases h : batch.prev_local_exit_tree.get_root ≠ batch.prev_local_exit_root
    · rw [if_pos h] at he
      exact (Except.error.inj he).symm
    · rw [if_neg h] at he
      exact absurd he (by simp)

theorem gna_error_shape {b : Batch} {e : ProofError}
    (he : get_network_aggregate b = .error e) :
    e = .InvalidLocalExitRoot b.prev_local_exit_tree.get_root b.prev_local_exit_root :=
  (C3_root_validation b).2 e he

theorem foldl_insert_sorted (orig : NetworkId) :
    ∀ (ws : List Withdrawal) (acc : LocalExitTree × BalanceTreeByNetwork),
      Smap.Sorted acc.2 →
      Smap.Sorted
        ((ws.foldl (fun a w => (a.1.add_leaf w.hash, a.2.insert orig w)) acc)).2
  | [], _, h => h
  | w :: ws, acc, h =>
    foldl_insert_sorted orig ws (acc.1.add_leaf w.hash, acc.2.insert orig w)
      (insert_sorted _ _ h)

theorem foldl_insert_wf (orig : NetworkId) :
    ∀ (ws : List Withdrawal) (acc : LocalExitTree × BalanceTreeByNetwork),
      acc.2.WF →
      ((ws.foldl (fun a w => (a.1.add_leaf w.hash, a.2.insert orig w)) acc)).2.WF
  | [], _, h => h
  | w :: ws, acc, h =>
    foldl_insert_wf orig ws (acc.1.add_leaf w.hash, acc.2.insert orig w)
      (insert_wf _ _ h)

theorem gna_ok_sorted {b : Batch} {r : ExitRoot × BalanceTreeByNetwork}
    (h : get_network_aggregate b = .ok r) : Smap.Sorted r.2 := by
  unfold get_network_aggregate at h
  by_cases hc : b.prev_local_exit_tree.get_root ≠ b.prev_local_exit_root
  · rw [if_pos hc] at h
    exact absurd h (by simp)
  · rw [if_neg hc] at h
    have := Except.ok.inj h
    subst this
    exact foldl_insert_sorted b.origin_network b.withdrawals
      (b.prev_local_exit_tree, [(b.origin_network, b.prev_local_balance_tree)])
      (List.pairwise_singleton _ _)

theorem gnbtAux_all_sorted :
    ∀ (batches : List Batch) (m aggs : List (Nat × (ExitRoot × BalanceTreeByNetwork))),
      (∀ p ∈ m, Smap.Sorted p.2.2) → gnbtAux batches m = .ok aggs →
      ∀ p ∈ aggs, Smap.Sorted p.2.2
  | [], m, aggs, hm, h => by
    rw [gnbtAux] at h
    exact Except.ok.inj h ▸ hm
  | batch :: rest, m, aggs, hm, h => by
    rw [gnbtAux] at h
    cases hg : get_network_aggregate batch with
    | error e => rw [hg] at h; exact absurd h (by simp)
    | ok r =>
      rw [hg] at h
      refine gnbtAux_all_sorted rest _ aggs ?_ h
      intro p hp
      rcases List.mem_append.mp hp with hp | hp
      · exact hm p (List.mem_of_mem_filter hp)
      · rw [List.mem_singleton.mp hp]
        exact gna_ok_sorted hg

theorem mbt_sorted_aux :
    ∀ (l : List (Nat × (ExitRoot × BalanceTreeByNetwork))) (acc : BalanceTreeByNetwork),
      Smap.Sorted acc → (∀ p ∈ l, Smap.Sorted p.2.2) →
      Smap.Sorted (l.foldl (fun c p => BalanceTreeByNetwork.merge c p.2.2) acc)
  | [], _, ha, _ => ha
  | p :: l, acc, ha, hl =>
    mbt_sorted_aux l (BalanceTreeByNetwork.merge acc p.2.2)
      (mmerge_sorted _ _ _ ha (hl p (List.mem_cons_self _ _)))
      fun q hq => hl q (List.mem_cons_of_mem _ hq)

theorem collated_sorted {batches : List Batch}
    {aggs : List (Nat × (ExitRoot × BalanceTreeByNetwork))}
    (h : generate_network_balance_trees batches = .ok aggs) :
    Smap.Sorted (merge_balance_trees aggs) :=
  mbt_sorted_aux aggs [] List.Pairwise.nil
    (gnbtAux_all_sorted batches [] aggs (by simp) h)

end PP

namespace PP

/-- C1: `generate_full_proof` performs no per-certificate debt check (the only
per-batch failure is `InvalidLocalExitRoot`); it pools every batch's aggregate
with `merge_balance_trees` and succeeds iff no network's pooled ledger has
debt. -/
theorem C1_global_pooled_check (batches : List Batch)
    (aggs : List (Nat × (ExitRoot × BalanceTreeByNetwork)))
    (h : generate_network_balance_trees batches = .ok aggs) :
    ((∃ out, generate_full_proof batches = .ok out)
        ↔ ∀ p ∈ merge_balance_trees aggs, p.2.has_debt = false)
      ∧ ∀ b e, get_network_aggregate b = .error e
          → ∃ g x, e = ProofError.InvalidLocalExitRoot g x := by
  constructor
  · simp only [generate_full_proof, h]
    by_cases hd : (((merge_balance_trees aggs).filter fun p => p.2.has_debt).map
        fun p => p.1).isEmpty = true
    · rw [if_pos hd]
      simp only [List.isEmpty_iff, List.map_eq_nil_iff, List.filter_eq_nil_iff] at hd
      constructor
      · intro _ p hp
        simpa using hd p hp
      · intro _
        exact ⟨_, rfl⟩
    · rw [if_neg hd]
      constructor
      · rintro ⟨out, hout⟩
        exact absurd hout (by simp)
      · intro hall
        refine absurd ?_ hd
        simp only [List.isEmpty_iff, List.map_eq_nil_iff, List.filter_eq_nil_iff]
        intro p hp
        simp [hall p hp]
  · intro b e he
    exact ⟨_, _, gna_error_shape he⟩

/-- C2: when any pooled network ledger has debt, `generate_full_proof` rejects
the whole batch with `NotEnoughBalance` carrying exactly the debtor networks
in strictly ascending `NetworkId` order and produces no checkpoint; otherwise
it returns the checkpoint map of every pooled network's exit root and balance
root. -/
theorem C2_rejection_determinism (batches : List Batch)
    (aggs : List (Nat × (ExitRoot × BalanceTreeByNetwork)))
    (h : generate_network_balance_trees batches = .ok aggs) :
    ((((merge_balance_trees aggs).filter fun p => p.2.has_debt).map fun p => p.1) ≠ []
      → generate_full_proof batches
          = .error (.NotEnoughBalance
              (((merge_balance_trees aggs).filter fun p => p.2.has_debt).map fun p => p.1))
        ∧ List.Pairwise (· < ·)
            (((merge_balance_trees aggs).filter fun p => p.2.has_debt).map fun p => p.1))
    ∧ ((((merge_balance_trees aggs).filter fun p => p.2.has_debt).map fun p => p.1) = []
      → generate_full_proof batches
          = .ok ((merge_balance_trees aggs).map fun p =>
              (p.1, (((mget p.1 aggs).map Prod.fst).getD zeroDigest, p.2.hash)))) := by
  constructor
  · intro hne
    have hd : ¬((((merge_balance_trees aggs).filter fun p => p.2.has_debt).map
        fun p => p.1).isEmpty = true) := by
      simpa [List.isEmpty_iff] using hne
    constructor
    · simp only [generate_full_proof, h]
      rw [if_neg hd]
    · exact List.Pairwise.map _ (fun a b hab => hab)
        (List.Pairwise.filter _ (collated_sorted h))
  · intro heq
    simp only [generate_full_proof, h]
    rw [if_pos (by simp [List.isEmpty_iff, heq])]

end PP

namespace PP

theorem hmGet_hmInsert {α : Type} (m : List (Nat × α)) (k k' : Nat) (v : α) :
    mget k' (hmInsert m k v) = if k' = k then some v else mget k' m := by
  induction m with
  | nil =>
    by_cases h : k' = k
    · simp [hmInsert, mget, h]
    · have h' : ¬k = k' := fun hh => h hh.symm
      simp [hmInsert, mget, h, h']
  | cons p rest ih =>
    obtain ⟨k₀, v₀⟩ := p
    by_cases h0 : k₀ = k
    · have he : hmInsert ((k₀, v₀) :: rest) k v = hmInsert rest k v := by
        simp [hmInsert, h0]
      rw [he, ih]
      by_cases h : k' = k
      · rw [if_pos h, if_pos h]
      · rw [if_neg h, if_neg h, mget, if_neg (fun hh => h (hh.symm.trans h0))]
    · have he : hmInsert ((k₀, v₀) :: rest) k v = (k₀, v₀) :: hmInsert rest k v := by
        simp [hmInsert, h0]
      rw [he, mget]
      by_cases h1 : k₀ = k'
      · rw [if_pos h1, if_neg (fun hh => h0 (h1.trans hh)), mget, if_pos h1]
      · rw [if_neg h1, ih, mget, if_neg h1]

/-- The last batch in the list whose `origin_network` is `n`. -/
def lastOrigin (n : NetworkId) : List Batch → Option Batch
  | [] => none
  | b :: rest =>
    match lastOrigin n rest with
    | some b' => some b'
    | none => if b.origin_network = n then some b else none

theorem gnbtAux_lookup :
    ∀ (batches : List Batch) (m aggs : List (Nat × (ExitRoot × BalanceTreeByNetwork))),
      gnbtAux batches m = .ok aggs → ∀ n,
      mget n aggs =
        match lastOrigin n batches with
        | some b => (get_network_aggregate b).toOption
        | none => mget n m
  | [], m, aggs, h, n => by
    rw [gnbtAux] at h
    rw [lastOrigin]
    exact Except.ok.inj h ▸ rfl
  | batch :: rest, m, aggs, h, n => by
    rw [gnbtAux] at h
    cases hg : get_network_aggregate batch with
    | error e =>
      rw [hg] at h
      exact absurd h (by simp)
    | ok r =>
      rw [hg] at h
      have ih := gnbtAux_lookup rest _ aggs h n
      rw [lastOrigin]
      cases hlo : lastOrigin n rest with
      | some b' =>
        rw [hlo] at ih
        simpa using ih
      | none =>
        rw [hlo] at ih
        rw [ih, hmGet_hmInsert]
        by_cases hb : batch.origin_network = n
        · subst hb
          simp [hg]
          rfl
        · rw [if_neg (fun hh => hb hh.symm), if_neg hb]

/-- C7 (amended): within one run, each batch is validated independently
against its own declared prior state, and a later batch with the same
`origin_network` overwrites the earlier one's entry: the map returned by
`generate_network_balance_trees` holds, for each network, exactly the
aggregate of the *last* batch with that origin. -/
theorem C7_amended_last_batch_wins (batches : List Batch)
    (aggs : List (Nat × (ExitRoot × BalanceTreeByNetwork)))
    (h : generate_network_balance_trees batches = .ok aggs) (n : NetworkId) :
    mget n aggs =
      match lastOrigin n batches with
      | some b => (get_network_aggregate b).toOption
      | none => none :=
  gnbtAux_lookup batches [] aggs h n

theorem gnbtAux_keys :
    ∀ (batches : List Batch) (m aggs : List (Nat × (ExitRoot × BalanceTreeByNetwork))),
      gnbtAux batches m = .ok aggs →
      ∀ p ∈ aggs, p ∈ m ∨ ∃ b ∈ batches, b.origin_network = p.1
  | [], m, aggs, h, p, hp => by
    rw [gnbtAux] at h
    exact Or.inl (Except.ok.inj h ▸ hp)
  | batch :: rest, m, aggs, h, p, hp => by
    rw [gnbtAux] at h
    cases hg : get_network_aggregate batch with
    | error e =>
      rw [hg] at h
      exact absurd h (by simp)
    | ok r =>
      rw [hg] at h
      rcases gnbtAux_keys rest _ aggs h p hp with hm | ⟨b, hb, he⟩
      · rcases List.mem_append.mp hm with hm | hm
        · exact Or.inl (List.mem_of_mem_filter hm)
        · rw [List.mem_singleton.mp hm]
          exact Or.inr ⟨batch, List.mem_cons_self _ _, rfl⟩
      · exact Or.inr ⟨b, List.mem_cons_of_mem _ hb, he⟩

/-- C9: in a successful `generate_full_proof`, a network that no input batch
originates (it appears in the pooled ledger only as a withdrawal destination)
is reported with the all-zero default digest as its exit root. -/
theorem C9_dest_only_zero_root (batches : List Batch)
    (out : List (Nat × (ExitRoot × BalanceRoot)))
    (h : generate_full_proof batches = .ok out)
    (n : NetworkId) (er br : Digest) (hmem : (n, (er, br)) ∈ out)
    (hno : ∀ b ∈ batches, b.origin_network ≠ n) :
    er = zeroDigest := by
  cases hg : generate_network_balance_trees batches with
  | error e =>
    simp only [generate_full_proof, hg] at h
    exact absurd h (by simp)
  | ok aggs =>
    simp only [generate_full_proof, hg] at h
    split at h
    · have hout := (Except.ok.inj h).symm
      subst hout
      obtain ⟨p, hp, hf⟩ := List.mem_map.mp hmem
      have hp1 : p.1 = n := congrArg Prod.fst hf
      have hnone : mget n aggs = none := by
        cases hq : mget n aggs with
        | none => rfl
        | some v =>
          rcases gnbtAux_keys batches [] aggs hg (n, v) (mem_of_mget_eq_some hq) with
            hO | ⟨b, hb, he⟩
          · exact absurd hO (by simp)
          · exact absurd he (hno b hb)
      have her : er = ((mget p.1 aggs).map Prod.fst).getD zeroDigest := by
        have h2 := congrArg (fun q => q.2.1) hf
        simpa using h2.symm
      rw [her, hp1, hnone]
      rfl
    · exact absurd h (by simp)
end PP

namespace PP

/-- Sum of the amounts of the withdrawals routed to network `k` for token `t`. -/
def routedAmount (ws : List Withdrawal) (k : NetworkId) (t : TokenInfo) : Nat :=
  ((ws.filter fun w => decide (w.dest_network = k ∧ w.token_info = t)).map
    fun w => w.amount).sum

/-- Sum of the amounts of all withdrawals of token `t`. -/
def totalAmount (ws : List Withdrawal) (t : TokenInfo) : Nat :=
  ((ws.filter fun w => decide (w.token_info = t)).map fun w => w.amount).sum

theorem foldl_insert_totals (orig : NetworkId) :
    ∀ (ws : List Withdrawal) (acc : LocalExitTree × BalanceTreeByNetwork)
      (k : NetworkId) (t : TokenInfo),
      acc.2.WF → t.Canonical → (∀ w ∈ ws, w.token_info.Canonical) →
      dep ((ws.foldl (fun a w =>
          (a.1.add_leaf w.hash, BalanceTreeByNetwork.insert a.2 orig w)) acc)).2 k t
          = dep acc.2 k t + routedAmount ws k t
      ∧ wdr ((ws.foldl (fun a w =>
          (a.1.add_leaf w.hash, BalanceTreeByNetwork.insert a.2 orig w)) acc)).2 k t
          = wdr acc.2 k t + (if k = orig then totalAmount ws t else 0)
  | [], acc, k, t, hwf, ht, hws => by
    simp [routedAmount, totalAmount]
  | w :: ws, acc, k, t, hwf, ht, hws => by
    have hw : w.token_info.Canonical := hws w (List.mem_cons_self _ _)
    have ih := foldl_insert_totals orig ws
      (acc.1.add_leaf w.hash, BalanceTreeByNetwork.insert acc.2 orig w) k t
      (insert_wf _ _ hwf) ht (fun u hu => hws u (List.mem_cons_of_mem _ hu))
    have hc5 := C5_insert_dual_effect acc.2 orig w hwf hw k t ht
    have hra : routedAmount (w :: ws) k t
        = (if k = w.dest_network ∧ t = w.token_info then w.amount else 0)
          + routedAmount ws k t := by
      unfold routedAmount
      by_cases hp : w.dest_network = k ∧ w.token_info = t
      · rw [List.filter_cons_of_pos (by simpa using hp)]
        simp [hp.1.symm, hp.2.symm]
      · rw [List.filter_cons_of_neg (by simpa using hp)]
        have : ¬(k = w.dest_network ∧ t = w.token_info) := by
          intro hq
          exact hp ⟨hq.1.symm, hq.2.symm⟩
        simp [this]
    have hta : totalAmount (w :: ws) t
        = (if t = w.token_info then w.amount else 0) + totalAmount ws t := by
      unfold totalAmount
      by_cases hp : w.token_info = t
      · rw [List.filter_cons_of_pos (by simpa using hp)]
        simp [hp.symm]
      · rw [List.filter_cons_of_neg (by simpa using hp)]
        have hne : ¬t = w.token_info := fun hh => hp hh.symm
        simp [hne]
    constructor
    · rw [List.foldl_cons]
      rw [ih.1, hc5.1, hra]
      omega
    · rw [List.foldl_cons]
      rw [ih.2, hc5.2.1, hta]
      by_cases hk : k = orig
      · by_cases htw : t = w.token_info
        · simp [hk, htw]
          omega
        · simp [hk, htw]
      · simp [hk]

/-- C10: an accepted batch's aggregate starts as the single entry mapping the
batch's origin network to its prior local balance tree (for an empty
withdrawal list it is exactly that), and any other network's ledger in the
aggregate has zero withdrawn totals and deposited totals equal to exactly the
amounts routed to it by this batch's withdrawals — a network's prior balances
enter only through the batch it originates. -/
theorem C10_aggregate_initialization (batch : Batch) (r : ExitRoot × BalanceTreeByNetwork)
    (h : get_network_aggregate batch = .ok r)
    (hs : Smap.Sorted batch.prev_local_balance_tree)
    (hws : ∀ w ∈ batch.withdrawals, w.token_info.Canonical) :
    (batch.withdrawals = [] →
      r.2 = [(batch.origin_network, batch.prev_local_balance_tree)])
    ∧ ∀ n, n ≠ batch.origin_network → ∀ t, t.Canonical →
        wdr r.2 n t = 0 ∧ dep r.2 n t = routedAmount batch.withdrawals n t := by
  unfold get_network_aggregate at h
  by_cases hc : batch.prev_local_exit_tree.get_root ≠ batch.prev_local_exit_root
  · rw [if_pos hc] at h
    exact absurd h (by simp)
  · rw [if_neg hc] at h
    have hr := Except.ok.inj h
    have hwfi : BalanceTreeByNetwork.WF
        [(batch.origin_network, batch.prev_local_balance_tree)] := by
      refine ⟨List.pairwise_singleton _ _, ?_⟩
      intro p hp
      rw [List.mem_singleton.mp hp]
      exact hs
    constructor
    · intro hnil
      rw [← hr, hnil]
      rfl
    · intro n hn t ht
      have htot := foldl_insert_totals batch.origin_network batch.withdrawals
        (batch.prev_local_exit_tree,
          [(batch.origin_network, batch.prev_local_balance_tree)]) n t hwfi ht hws
      have hbase : ledgerOf [(batch.origin_network, batch.prev_local_balance_tree)] n
          = [] := by
        unfold ledgerOf
        rw [mget, if_neg (fun hh => hn hh.symm)]
        rfl
      have hdep0 : dep [(batch.origin_network, batch.prev_local_balance_tree)] n t = 0 := by
        rw [dep_eq_depBT, hbase]
        rfl
      have hwdr0 : wdr [(batch.origin_network, batch.prev_local_balance_tree)] n t = 0 := by
        rw [wdr_eq_wdrBT, hbase]
        rfl
      constructor
      · rw [← hr]
        rw [htot.2, hwdr0, if_neg hn]
      · rw [← hr]
        rw [htot.1, hdep0]
        omega

end PP

namespace PP

/-- C8: under the Local solvency policy, when the origin network's ledger has
debt after the certificate's withdrawals are applied, the application fails
with `HasDebt` naming that network (an error return carries no state, so the
caller's accumulator and ledger are unchanged). -/
theorem C8_local_has_debt (acc : LocalExitTree) (ledger : BalanceTreeByNetwork)
    (cert : Certificate)
    (hroot : acc.get_root = cert.prev_local_exit_root)
    (hdebt : BalanceTree.has_debt ((mget cert.origin_network
        ((cert.withdrawals.foldl (fun a w =>
            (a.1.add_leaf w.hash, BalanceTreeByNetwork.insert a.2 cert.origin_network w))
          (acc, ledger))).2).getD []) = true) :
    applyCertificateLocal acc ledger cert = .error (.HasDebt cert.origin_network) := by
  unfold applyCertificateLocal
  rw [if_neg (fun hh => hh hroot), if_pos hdebt]

/-- Minimal big-endian byte encoding of a natural number (empty for 0). -/
def minimalBE : Nat → List Nat
  | 0 => []
  | n + 1 => minimalBE ((n + 1) / 256) ++ [(n + 1) % 256]
decreasing_by exact Nat.div_lt_self (by omega) (by omega)

end PP

namespace PP

theorem beBytes_succ (len a : Nat) :
    beBytes (len + 1) a = beBytes len (a / 256) ++ [a % 256] := by
  unfold beBytes
  rw [List.range_succ, List.map_append, List.map_singleton]
  congr 1
  · refine List.map_congr_left fun i hi => ?_
    have hi' : i < len := List.mem_range.mp hi
    have h8 : 8 * (len + 1 - 1 - i) = 8 + 8 * (len - 1 - i) := by omega
    have hdiv : a >>> 8 = a / 256 := by
      rw [Nat.shiftRight_eq_div_pow]
    rw [h8, Nat.shiftRight_add a 8, hdiv]
  · have h0 : len + 1 - 1 - len = 0 := by omega
    rw [h0, Nat.mul_zero, Nat.shiftRight_zero,
      show (0xff : Nat) = 2 ^ 8 - 1 from by norm_num,
      Nat.and_pow_two_sub_one_eq_mod]

/-- For in-range values, the fixed-width big-endian encoding is the left
zero-padded minimal big-endian encoding (the spec's §4.1 amount layout). -/
theorem beBytes_eq_pad :
    ∀ (len a : Nat), a < 2 ^ (8 * len) →
      beBytes len a = List.replicate (len - (minimalBE a).length) 0 ++ minimalBE a
  | 0, a, h => by
    have ha : a = 0 := by
      have h1 : (2 : Nat) ^ (8 * 0) = 1 := by norm_num
      omega
    subst ha
    have hm0 : minimalBE 0 = [] := by rw [minimalBE]
    rw [hm0]
    rfl
  | len + 1, a, h => by
    rw [beBytes_succ]
    cases a with
    | zero =>
      have hm0 : minimalBE 0 = [] := by rw [minimalBE]
      have hpos : 0 < 2 ^ (8 * len) := Nat.pos_pow_of_pos _ (by omega)
      have hb0 := beBytes_eq_pad len 0 hpos
      rw [hm0] at hb0
      rw [Nat.zero_div, hb0, hm0]
      simp only [List.length_nil, Nat.sub_zero, List.append_nil, Nat.zero_mod]
      rw [List.replicate_succ']
    | succ a0 =>
      have hdiv : (a0 + 1) / 256 < 2 ^ (8 * len) := by
        have h2 : (2 : Nat) ^ (8 * (len + 1)) = 2 ^ (8 * len) * 256 := by
          rw [show 8 * (len + 1) = 8 * len + 8 from by omega, Nat.pow_add]
        rw [h2] at h
        omega
      have hmrec : minimalBE (a0 + 1)
          = minimalBE ((a0 + 1) / 256) ++ [(a0 + 1) % 256] := by rw [minimalBE]
      have hlen : len + 1 - ((minimalBE ((a0 + 1) / 256)).length + 1)
          = len - (minimalBE ((a0 + 1) / 256)).length := by omega
      rw [beBytes_eq_pad len _ hdiv, hmrec, List.length_append,
        List.length_singleton, List.append_assoc, hlen]
end PP

namespace PP

set_option maxRecDepth 1000000 in
/-- C4: `Withdrawal::hash` is the Keccak-256 digest of
`leaf_type(1) ‖ origin_network(4, BE) ‖ origin_token_address(20) ‖
dest_network(4, BE) ‖ dest_address(20) ‖ amount(32, left-zero-padded BE) ‖
keccak256(metadata)(32)`, hashed once; on the golden test vector it yields
`22ed288677b4c2afd83a6d7d55f7df7f4eaaf60f7310210c030fd27adacbc5e0`. -/
theorem C4_withdrawal_leaf_hash (w : Withdrawal) (hamt : w.amount < 2 ^ 256) :
    Withdrawal.hash w
        = keccak256 ([w.leaf_type]
            ++ beBytes 4 w.token_info.origin_network
            ++ beBytes 20 w.token_info.origin_token_address
            ++ beBytes 4 w.dest_network
            ++ beBytes 20 w.dest_address
            ++ (List.replicate (32 - (minimalBE w.amount).length) 0 ++ minimalBE w.amount)
            ++ keccak256 w.metadata)
      ∧ Withdrawal.hash ⟨0, ⟨0, 0⟩, 1, 0xc949254d682d8c9ad5682521675b8f43b102aec4,
          0x8ac7230489e80000, []⟩
          = [0x22, 0xed, 0x28, 0x86, 0x77, 0xb4, 0xc2, 0xaf, 0xd8, 0x3a, 0x6d, 0x7d,
             0x55, 0xf7, 0xdf, 0x7f, 0x4e, 0xaa, 0xf6, 0x0f, 0x73, 0x10, 0x21, 0x0c,
             0x03, 0x0f, 0xd2, 0x7a, 0xda, 0xcb, 0xc5, 0xe0] := by
  constructor
  · unfold Withdrawal.hash keccak256_combine Withdrawal.amount_as_bytes
    have h256 : w.amount < 2 ^ (8 * 32) := by
      have he : (8 * 32 : Nat) = 256 := by norm_num
      rw [he]
      exact hamt
    rw [beBytes_eq_pad 32 w.amount h256]
    congr 1
  · decide

end PP

namespace PP

/-! ## Concrete instances -/

def tokA : TokenInfo := ⟨0, 5⟩

def wA : Withdrawal := ⟨0, tokA, 1, 7, 3, []⟩

def batchA : Batch := ⟨0, ⟨[]⟩, zeroDigest, [], [wA]⟩

def batchEmpty : Batch := ⟨0, ⟨[]⟩, zeroDigest, [], []⟩

def batchDebt : Batch := ⟨0, ⟨[]⟩, zeroDigest, [(5, (0, 3))], []⟩

def batchC9 : Batch := ⟨0, ⟨[]⟩, zeroDigest, [(5, (3, 0))], [wA]⟩

def aggsDebt : List (Nat × (ExitRoot × BalanceTreeByNetwork)) :=
  [(0, (zeroDigest, [(0, [(5, (0, 3))])]))]

def aggsEmptyRun : List (Nat × (ExitRoot × BalanceTreeByNetwork)) :=
  [(0, (zeroDigest, [(0, [])]))]

def badRoot : Digest := List.replicate 32 1

def batchBad : Batch := ⟨0, ⟨[]⟩, badRoot, [], []⟩

def testWithdrawal : Withdrawal :=
  ⟨0, ⟨0, 0⟩, 1, 0xc949254d682d8c9ad5682521675b8f43b102aec4, 0x8ac7230489e80000, []⟩

def ledgerDebt : BalanceTreeByNetwork := [(0, [(5, (0, 3))])]

def certEmpty : Certificate := ⟨0, zeroDigest, []⟩

def A6 : BalanceTreeByNetwork := [(0, [(5, (1, 2))])]

def B6 : BalanceTreeByNetwork := [(0, [(5, (3, 4))]), (2, [(9, (7, 0))])]

def C6m : BalanceTreeByNetwork := [(1, [(5, (0, 1))])]

def brC9 : Digest :=
  [201, 81, 149, 238, 39, 252, 188, 140, 11, 160, 244, 6, 24, 251, 40, 123,
   122, 230, 184, 182, 226, 163, 195, 3, 50, 1, 20, 232, 222, 50, 240, 166]

def outC9 : List (Nat × (ExitRoot × BalanceRoot)) :=
  [(0, ([229, 179, 235, 88, 213, 222, 2, 162, 64, 3, 40, 45, 236, 142, 77, 105,
         224, 130, 69, 97, 133, 84, 96, 63, 199, 191, 231, 167, 251, 9, 127, 196],
        [119, 243, 132, 115, 60, 111, 138, 71, 250, 104, 37, 69, 241, 195, 227, 59,
         171, 246, 184, 234, 156, 182, 168, 109, 137, 194, 25, 224, 139, 250, 133, 107])),
   (1, (zeroDigest, brC9))]

end PP

namespace PP

/-! ## Witnesses -/

instance {ε α : Type} [DecidableEq ε] [DecidableEq α] : DecidableEq (Except ε α)
  | .error e, .error f =>
    if h : e = f then .isTrue (by rw [h]) else .isFalse fun hh => h (Except.error.inj hh)
  | .ok x, .ok y =>
    if h : x = y then .isTrue (by rw [h]) else .isFalse fun hh => h (Except.ok.inj hh)
  | .error _, .ok _ => .isFalse fun hh => Except.noConfusion hh
  | .ok _, .error _ => .isFalse fun hh => Except.noConfusion hh

def rootC9 : Digest :=
  [229, 179, 235, 88, 213, 222, 2, 162, 64, 3, 40, 45, 236, 142, 77, 105,
   224, 130, 69, 97, 133, 84, 96, 63, 199, 191, 231, 167, 251, 9, 127, 196]

def aggsC9 : List (Nat × (ExitRoot × BalanceTreeByNetwork)) :=
  [(0, (rootC9, [(0, [(5, (3, 3))]), (1, [(5, (3, 0))])]))]

theorem mbt_aggsDebt : merge_balance_trees aggsDebt = [(0, [(5, (0, 3))])] := by
  simp only [merge_balance_trees, aggsDebt, List.foldl, BalanceTreeByNetwork.new,
    BalanceTreeByNetwork.merge]
  rw [mmerge]

theorem mbt_aggsC9 :
    merge_balance_trees aggsC9 = [(0, [(5, (3, 3))]), (1, [(5, (3, 0))])] := by
  simp only [merge_balance_trees, aggsC9, List.foldl, BalanceTreeByNetwork.new,
    BalanceTreeByNetwork.merge]
  rw [mmerge]

theorem C1_witness :
    generate_network_balance_trees [batchDebt] = .ok aggsDebt
    ∧ (((∃ out, generate_full_proof [batchDebt] = .ok out)
        ↔ ∀ p ∈ merge_balance_trees aggsDebt, p.2.has_debt = false)
      ∧ ∀ b e, get_network_aggregate b = .error e
          → ∃ g x, e = ProofError.InvalidLocalExitRoot g x) :=
  ⟨by decide, C1_global_pooled_check [batchDebt] aggsDebt (by decide)⟩

theorem C2_witness :
    generate_network_balance_trees [batchDebt] = .ok aggsDebt
    ∧ (((merge_balance_trees aggsDebt).filter fun p => p.2.has_debt).map fun p => p.1) ≠ []
    ∧ generate_full_proof [batchDebt]
        = .error (.NotEnoughBalance (((merge_balance_trees aggsDebt).filter
            fun p => p.2.has_debt).map fun p => p.1))
    ∧ List.Pairwise (· < ·) (((merge_balance_trees aggsDebt).filter
        fun p => p.2.has_debt).map fun p => p.1) := by
  have hne : (((merge_balance_trees aggsDebt).filter fun p => p.2.has_debt).map
      fun p => p.1) ≠ [] := by
    rw [mbt_aggsDebt]
    decide
  have h := (C2_rejection_determinism [batchDebt] aggsDebt (by decide)).1 hne
  exact ⟨by decide, hne, h.1, h.2⟩

theorem C3_witness :
    batchBad.prev_local_exit_tree.get_root ≠ batchBad.prev_local_exit_root
    ∧ get_network_aggregate batchBad
        = .error (.InvalidLocalExitRoot batchBad.prev_local_exit_tree.get_root
            batchBad.prev_local_exit_root) :=
  ⟨by decide, (C3_root_validation batchBad).1.mpr (by decide)⟩

theorem C4_witness :
    testWithdrawal.amount < 2 ^ 256
    ∧ (Withdrawal.hash testWithdrawal
        = keccak256 ([testWithdrawal.leaf_type]
            ++ beBytes 4 testWithdrawal.token_info.origin_network
            ++ beBytes 20 testWithdrawal.token_info.origin_token_address
            ++ beBytes 4 testWithdrawal.dest_network
            ++ beBytes 20 testWithdrawal.dest_address
            ++ (List.replicate (32 - (minimalBE testWithdrawal.amount).length) 0
                ++ minimalBE testWithdrawal.amount)
            ++ keccak256 testWithdrawal.metadata)
      ∧ Withdrawal.hash ⟨0, ⟨0, 0⟩, 1, 0xc949254d682d8c9ad5682521675b8f43b102aec4,
          0x8ac7230489e80000, []⟩
          = [0x22, 0xed, 0x28, 0x86, 0x77, 0xb4, 0xc2, 0xaf, 0xd8, 0x3a, 0x6d, 0x7d,
             0x55, 0xf7, 0xdf, 0x7f, 0x4e, 0xaa, 0xf6, 0x0f, 0x73, 0x10, 0x21, 0x0c,
             0x03, 0x0f, 0xd2, 0x7a, 0xda, 0xcb, 0xc5, 0xe0]) :=
  ⟨by decide, C4_withdrawal_leaf_hash testWithdrawal (by decide)⟩

theorem C5_witness :
    BalanceTreeByNetwork.WF []
    ∧ wA.token_info.Canonical
    ∧ tokA.Canonical
    ∧ (dep (BalanceTreeByNetwork.insert [] 0 wA) 1 tokA
        = dep [] 1 tokA
          + (if (1 : NetworkId) = wA.dest_network ∧ tokA = wA.token_info
             then wA.amount else 0)
      ∧ wdr (BalanceTreeByNetwork.insert [] 0 wA) 1 tokA
        = wdr [] 1 tokA
          + (if (1 : NetworkId) = (0 : NetworkId) ∧ tokA = wA.token_info
             then wA.amount else 0)
      ∧ ((mget 1 (BalanceTreeByNetwork.insert [] 0 wA)).isSome
          ↔ (mget 1 ([] : BalanceTreeByNetwork)).isSome ∨ (1 : NetworkId) = 0
            ∨ (1 : NetworkId) = wA.dest_network)) :=
  ⟨by decide, by decide, by decide,
    C5_insert_dual_effect [] 0 wA (by decide) (by decide) 1 tokA (by decide)⟩

theorem C6_witness :
    A6.WF ∧ B6.WF ∧ C6m.WF
    ∧ ((A6.merge B6).merge C6m = A6.merge (B6.merge C6m)
      ∧ A6.merge B6 = B6.merge A6
      ∧ (∀ k, mget k (A6.merge B6) = ocomb BalanceTree.merge (mget k A6) (mget k B6))
      ∧ ∀ n t, dep (A6.merge B6) n t = dep A6 n t + dep B6 n t
          ∧ wdr (A6.merge B6) n t = wdr A6 n t + wdr B6 n t) :=
  ⟨by decide, by decide, by decide,
    C6_merge_algebra A6 B6 C6m (by decide) (by decide) (by decide)⟩

theorem C7_witness :
    generate_network_balance_trees [batchEmpty] = .ok aggsEmptyRun
    ∧ mget 0 aggsEmptyRun
        = match lastOrigin 0 [batchEmpty] with
          | some b => (get_network_aggregate b).toOption
          | none => none :=
  ⟨by decide, C7_amended_last_batch_wins [batchEmpty] aggsEmptyRun (by decide) 0⟩

set_option maxRecDepth 1000000 in
/-- C7 fails on the code: with two batches of origin network 0, where the
first (`batchA`) withdraws 3 of `tokA`, the returned entry for network 0
records a withdrawn total of 0 — only the last batch's aggregate survives, so
the entry does not reflect all of the network's certificates. -/
theorem C7_counterexample :
    wdr ((mget 0 ((generate_network_balance_trees [batchA, batchEmpty]).toOption.getD
        [])).getD (zeroDigest, [])).2 0 tokA = 0
    ∧ wdr ((get_network_aggregate batchA).toOption.getD (zeroDigest, [])).2 0 tokA = 3
    ∧ (generate_network_balance_trees [batchA, batchEmpty]).toOption ≠ none := by
  decide

theorem C8_witness :
    (LocalExitTree.mk []).get_root = certEmpty.prev_local_exit_root
    ∧ BalanceTree.has_debt ((mget certEmpty.origin_network
        ((certEmpty.withdrawals.foldl
            (fun (a : LocalExitTree × BalanceTreeByNetwork) w =>
              (a.1.add_leaf w.hash,
                BalanceTreeByNetwork.insert a.2 certEmpty.origin_network w))
          (⟨[]⟩, ledgerDebt))).2).getD []) = true
    ∧ applyCertificateLocal ⟨[]⟩ ledgerDebt certEmpty
        = .error (.HasDebt certEmpty.origin_network) :=
  ⟨by decide, by decide,
    C8_local_has_debt ⟨[]⟩ ledgerDebt certEmpty (by decide) (by decide)⟩

set_option maxRecDepth 1000000 in
set_option maxHeartbeats 2000000 in
theorem C9_witness :
    generate_full_proof [batchC9] = .ok outC9
    ∧ (1, (zeroDigest, brC9)) ∈ outC9
    ∧ (∀ b ∈ [batchC9], b.origin_network ≠ 1)
    ∧ zeroDigest = zeroDigest := by
  have hg : generate_network_balance_trees [batchC9] = .ok aggsC9 := by decide
  have h : generate_full_proof [batchC9] = .ok outC9 := by
    simp only [generate_full_proof, hg, mbt_aggsC9]
    decide
  exact ⟨h, by decide, by decide,
    C9_dest_only_zero_root [batchC9] outC9 h 1 zeroDigest brC9 (by decide) (by decide)⟩

theorem C10_witness :
    get_network_aggregate batchEmpty
      = .ok ((zeroDigest, [(0, [])]) : ExitRoot × BalanceTreeByNetwork)
    ∧ Smap.Sorted batchEmpty.prev_local_balance_tree
    ∧ (∀ w ∈ batchEmpty.withdrawals, w.token_info.Canonical)
    ∧ ((batchEmpty.withdrawals = [] →
        ((zeroDigest, [(0, [])]) : ExitRoot × BalanceTreeByNetwork).2
          = [(batchEmpty.origin_network, batchEmpty.prev_local_balance_tree)])
      ∧ ∀ n, n ≠ batchEmpty.origin_network → ∀ t, t.Canonical →
          wdr ((zeroDigest, [(0, [])]) : ExitRoot × BalanceTreeByNetwork).2 n t = 0
          ∧ dep ((zeroDigest, [(0, [])]) : ExitRoot × BalanceTreeByNetwork).2 n t
              = routedAmount batchEmpty.withdrawals n t) :=
  ⟨by decide, by decide, by decide,
    C10_aggregate_initialization batchEmpty ((zeroDigest, [(0, [])]))
      (by decide) (by decide) (by decide)⟩

end PP
